import Mathlib

/-!
Shallow embedding of `src/中转/ip.py`: candidate extraction from tagged text,
the concurrent reachability scheduler with per-country quotas, and output
assembly.  Python strings are modelled as Lean `String`/`List Char`; the
nondeterministic completion order of the thread pool is modelled as an
explicit list of completion events; fallible effects (subprocess, sockets,
file writes) are modelled with `Except`.  ASCII approximations: `\d`, `\w`
and `str.lower` are modelled on their ASCII fragments, which is exact for
every tag and address the script manipulates.
-/

/-- Model of `COUNTRIES = ["sg", "hk", "jp", "tw", "kr"]` — priority order of tags. -/
def COUNTRIES : List String := ["sg", "hk", "jp", "tw", "kr"]

/-- Model of `MAX_PER_COUNTRY.get(c, 0)` — the configured dictionary with its
`dict.get` default of 0 for unknown keys. -/
def MAX_PER_COUNTRY_get (c : String) : Nat :=
  if c = "sg" then 100
  else if c = "hk" then 50
  else if c = "jp" then 50
  else if c = "tw" then 50
  else if c = "kr" then 50
  else 0

/-- Characters `str.strip()` removes and `str.split()` splits on
(Python whitespace; the common ASCII and Unicode space set). -/
def pyIsSpace (c : Char) : Bool :=
  c = ' ' || c = '\t' || c = '\n' || c = '\x0b' || c = '\x0c' || c = '\r' ||
  c = '\x1c' || c = '\x1d' || c = '\x1e' || c = '\x1f' || c = '\x85' ||
  c = '\xa0' || c = ' ' || (' ' ≤ c && c ≤ ' ') ||
  c = ' ' || c = ' ' || c = ' ' || c = ' ' || c = '　'

/-- Model of `raw.strip()`. -/
def pyStrip (s : String) : String :=
  String.mk (((s.data.dropWhile pyIsSpace).reverse.dropWhile pyIsSpace).reverse)

/-- Line-break characters recognised by `str.splitlines()` other than the
`\r\n` pair, which is handled separately. -/
def isLineBreak (c : Char) : Bool :=
  c = '\n' || c = '\r' || c = '\x0b' || c = '\x0c' ||
  c = '\x1c' || c = '\x1d' || c = '\x1e' || c = '\x85' ||
  c = ' ' || c = ' '

/-- Worker of `splitlines`: cut at each terminator, `\r\n` counting once. -/
def splitlinesGo : List Char → List Char → List (List Char)
  | [], cur => [cur.reverse]
  | '\r' :: '\n' :: rest, cur => cur.reverse :: splitlinesGo rest []
  | c :: rest, cur =>
    if isLineBreak c then cur.reverse :: splitlinesGo rest []
    else splitlinesGo rest (c :: cur)

/-- Drop a final empty segment (Python emits no segment after a trailing
terminator, and `"".splitlines() == []`). -/
def dropLastIfEmpty : List (List Char) → List (List Char)
  | [] => []
  | [x] => if x = [] then [] else [x]
  | x :: xs => x :: dropLastIfEmpty xs

/-- Model of `text.splitlines()`. -/
def pySplitlines (s : String) : List String :=
  (dropLastIfEmpty (splitlinesGo s.data [])).map String.mk

/-- Python `\w` on its ASCII fragment (letters, digits, underscore). -/
def isWordChar (c : Char) : Bool :=
  c.isAlphanum || c = '_'

/-- Does one of the five tag alternatives of `PAT_TAG` match these two
(already lowercased) characters? -/
def tagPair (a b : Char) : Bool :=
  (a = 's' && b = 'g') || (a = 'h' && b = 'k') || (a = 'j' && b = 'p') ||
  (a = 't' && b = 'w') || (a = 'k' && b = 'r')

/-- Does `PAT_TAG` (`#(?:sg|hk|jp|tw|kr)\b`, case-insensitive) match at the
head of this suffix? -/
def tagAt : List Char → Bool
  | '#' :: c1 :: c2 :: rest =>
    tagPair c1.toLower c2.toLower &&
      (match rest with
       | [] => true
       | c :: _ => !isWordChar c)
  | _ => false

/-- Model of `PAT_TAG.search(line)` as a boolean: some position matches. -/
def patTagSearchL : List Char → Bool
  | [] => false
  | s@(_ :: t) => tagAt s || patTagSearchL t

/-- Model of `PAT_TAG.search(line)` on a `String`. -/
def pat_tag_search (line : String) : Bool :=
  patTagSearchL line.data

/-- Is `pat` an initial run of `hay`? -/
def leadsWith : List Char → List Char → Bool
  | [], _ => true
  | _ :: _, [] => false
  | p :: ps, h :: hs => p = h && leadsWith ps hs

/-- Python substring containment `pat in hay` on char lists. -/
def strContainsL : List Char → List Char → Bool
  | hay, pat =>
    match hay with
    | [] => leadsWith pat []
    | _ :: t => leadsWith pat hay || strContainsL t pat

/-- Model of `line.lower()` on its ASCII fragment, character by character. -/
def pyLower (s : String) : String :=
  String.mk (s.data.map Char.toLower)

/-- Model of `primary_tag_of_line`: lowercase the line, return the first country `c`
(in `COUNTRIES` order) with `"#c"` a plain substring of it. -/
def primary_tag_of_line (line : String) : Option String :=
  let low := pyLower line
  COUNTRIES.find? (fun c => strContainsL low.data ('#' :: c.data))

/-- Match exactly `n` ASCII digits, returning them and the rest. -/
def matchNDigits : Nat → List Char → Option (List Char × List Char)
  | 0, s => some ([], s)
  | n + 1, c :: s =>
    if c.isDigit then
      match matchNDigits n s with
      | some (d, r) => some (c :: d, r)
      | none => none
    else none
  | _ + 1, [] => none

/-- Final octet of the `RE_IPV4` group: `\d{n}` with nothing after it. -/
def lastOct (n : Nat) (s : List Char) : Option (List (List Char) × List Char) :=
  match matchNDigits n s with
  | some (d, r) => some ([d], r)
  | none => none

/-- Non-final octet: `\d{n}` then `.` then the continuation. -/
def consOct (next : List Char → Option (List (List Char) × List Char))
    (n : Nat) (s : List Char) : Option (List (List Char) × List Char) :=
  match matchNDigits n s with
  | some (d, '.' :: r2) =>
    match next r2 with
    | some (ds, r) => some (d :: ds, r)
    | none => none
  | _ => none

/-- First alternative that succeeds (regex backtracking order). -/
def oalt {α : Type} : Option α → Option α → Option α
  | some x, _ => some x
  | none, b => b

/-- Match `\d{1,3}(\.\d{1,3}){k}` at the head of `s` with the greedy
backtracking order of the regex engine (3 digits, then 2, then 1, deeper
octets backtracking first), returning the octet groups. -/
def matchOctetThen : Nat → List Char → Option (List (List Char) × List Char)
  | 0, s => oalt (lastOct 3 s) (oalt (lastOct 2 s) (lastOct 1 s))
  | k + 1, s =>
    oalt (consOct (matchOctetThen k) 3 s)
      (oalt (consOct (matchOctetThen k) 2 s) (consOct (matchOctetThen k) 1 s))

/-- Model of `RE_IPV4.search(line).group(1)`: octet groups of the leftmost match of
`\d{1,3}(?:\.\d{1,3}){3}`.  (The optional `/\d{1,2}` suffix of `RE_IPV4`
lies outside group 1 and can never make a match fail.) -/
def re_ipv4_first : List Char → Option (List (List Char))
  | [] =>
    match matchOctetThen 3 [] with
    | some (ds, _) => some ds
    | none => none
  | s@(_ :: t) =>
    match matchOctetThen 3 s with
    | some (ds, _) => some ds
    | none => re_ipv4_first t

/-- Rebuild the matched group from its octets (dot-joined). -/
def joinDots : List (List Char) → List Char
  | [] => []
  | [d] => d
  | d :: ds => d ++ '.' :: joinDots ds

/-- Model of `ip.split('.')` keeping empties, as Python does. -/
def splitDotsGo : List Char → List Char → List (List Char)
  | [], cur => [cur.reverse]
  | '.' :: rest, cur => cur.reverse :: splitDotsGo rest []
  | c :: rest, cur => splitDotsGo rest (c :: cur)

/-- Decimal value of a digit list. -/
def digitsToNat (ds : List Char) : Nat :=
  ds.foldl (fun n c => n * 10 + (c.toNat - '0'.toNat)) 0

/-- Model of `int(p)` restricted to what the split octets can be: a nonempty run of
ASCII digits (always nonnegative, so the value is a `Nat`). -/
def pyIntVal (p : List Char) : Option Nat :=
  if p ≠ [] && p.all Char.isDigit then some (digitsToNat p) else none

/-- The per-octet test of `extract_ipv4`: `int(p)` succeeds and
`0 <= int(p) <= 255`. -/
def octetOk (p : List Char) : Bool :=
  match pyIntVal p with
  | some v => v ≤ 255
  | none => false

/-- Model of `extract_ipv4(line)`: group 1 of the first `RE_IPV4` match, kept only if
every dot-separated part parses to a value in `[0, 255]`. -/
def extract_ipv4 (line : String) : Option String :=
  match re_ipv4_first line.data with
  | none => none
  | some ds =>
    let ip := joinDots ds
    if (splitDotsGo ip []).all octetOk then some (String.mk ip) else none

/-- One collected entry `(idx, line, tag, ip)` of `collect_candidates`. -/
structure Candidate where
  idx : Nat
  line : String
  tag : String
  ip : String
deriving DecidableEq

/-- Worker of `collect_candidates`: walk the enumerated lines carrying the
`seen` set (modelled as a list with membership). -/
def collectGo : List (Nat × String) → List String → List Candidate
  | [], _ => []
  | (idx, raw) :: rest, seen =>
    let line := pyStrip raw
    if line = "" then collectGo rest seen
    else if !pat_tag_search line then collectGo rest seen
    else if line ∈ seen then collectGo rest seen
    else
      let seen1 := line :: seen
      match primary_tag_of_line line with
      | none => collectGo rest seen1
      | some tag =>
        match extract_ipv4 line with
        | none => collectGo rest seen1
        | some ip => ⟨idx, line, tag, ip⟩ :: collectGo rest seen1

/-- Model of `collect_candidates(text)`. -/
def collect_candidates (text : String) : List Candidate :=
  collectGo (pySplitlines text).enum []

/-- Model of `ping_host`: run the system ping (modelled by its return code, or an
exception); any exception yields `False`. -/
def ping_host (pingExec : String → Except String Int) (ip : String) : Bool :=
  match pingExec ip with
  | .ok rc => rc == 0
  | .error _ => false

/-- The port list `(80, 443)` of `is_reachable`. -/
def tcpPorts : List Nat := [80, 443]

/-- Model of `tcp_connect`: try each port; an exception on a port just moves on, a
successful connection returns `True`. -/
def tcp_connect (connExec : String → Nat → Except String Unit) (ip : String)
    (ports : List Nat) : Bool :=
  ports.any (fun p =>
    match connExec ip p with
    | .ok _ => true
    | .error _ => false)

/-- Model of `is_reachable`: ping first, else TCP to 80/443. -/
def is_reachable (pingExec : String → Except String Int)
    (connExec : String → Nat → Except String Unit) (ip : String) : Bool :=
  ping_host pingExec ip || tcp_connect connExec ip tcpPorts

/-- Model of `try: ok = fut.result() except Exception: ok = False` — a probe task
that raised counts as unreachable. -/
def okOf : Except String Bool → Bool
  | .ok b => b
  | .error _ => false

/-- Model of `saved[t].append(entry)` on the map of per-country lists. -/
def updateSaved (saved : String → List (Nat × String)) (t : String)
    (entry : Nat × String) : String → List (Nat × String) :=
  fun c => if c = t then saved t ++ [entry] else saved c

/-- Model of `all(len(saved[c]) >= MAX_PER_COUNTRY.get(c, 0) for c in COUNTRIES)`. -/
def allFull (quota : String → Nat) (saved : String → List (Nat × String)) : Bool :=
  COUNTRIES.all (fun c => quota c ≤ (saved c).length)

/-- The body of the `as_completed` loop for one completed probe: if it was
reachable and its country is still under quota, append it there. -/
def acceptStep (quota : String → Nat) (saved : String → List (Nat × String))
    (cand : Candidate) (res : Except String Bool) : String → List (Nat × String) :=
  if okOf res && decide ((saved cand.tag).length < quota cand.tag) then
    updateSaved saved cand.tag (cand.idx, cand.line)
  else saved

/-- The `as_completed` loop of `run_concurrent_tests`: consume completion
events in order, count each, accept a reachable candidate only while its
country is under quota, and break (cancelling the rest) once every country
is full. -/
def schedLoop (quota : String → Nat) :
    List (Candidate × Except String Bool) → (String → List (Nat × String)) →
    Nat → (String → List (Nat × String)) × Nat
  | [], saved, tested => (saved, tested)
  | (cand, res) :: rest, saved, tested =>
    let saved1 := acceptStep quota saved cand res
    if allFull quota saved1 then (saved1, tested + 1)
    else schedLoop quota rest saved1 (tested + 1)

/-- Insert an entry into an index-sorted list, before the first entry of
greater-or-equal index (so earlier entries stay first among equal keys). -/
def insertByIdx (x : Nat × String) : List (Nat × String) → List (Nat × String)
  | [] => [x]
  | y :: ys => if x.1 ≤ y.1 then x :: y :: ys else y :: insertByIdx x ys

/-- Model of `saved[c].sort(key=lambda t: t[0])` — Python's stable sort by index,
modelled as a stable insertion sort (observationally equal for a sort
that is stable and ordered by the index key). -/
def sortByIdx : List (Nat × String) → List (Nat × String)
  | [] => []
  | x :: xs => insertByIdx x (sortByIdx xs)

/-- Model of `run_concurrent_tests(candidates)` with the quota table passed
explicitly and the thread pool's nondeterministic completion order given as
the event list: returns `(saved, tested)` with each country's list sorted
by original index. -/
def run_concurrent_tests (quota : String → Nat)
    (events : List (Candidate × Except String Bool)) :
    (String → List (Nat × String)) × Nat :=
  let r := schedLoop quota events (fun _ => []) 0
  (fun c => sortByIdx (r.1 c), r.2)

/-- Lines emitted for an arbitrary country list (generalisation used to
reason about `output_lines` by induction on the country list). -/
def outputAux (cs : List String) (saved : String → List (Nat × String)) : List String :=
  (cs.map (fun c => (saved c).map Prod.snd)).flatten

/-- The line sequence `write_output` emits: country blocks in `COUNTRIES`
order, each block the saved lines in list order. -/
def output_lines (saved : String → List (Nat × String)) : List String :=
  outputAux COUNTRIES saved

/-- How the process ends: `sys.exit(code)`, or an uncaught exception
escaping `main`. -/
inductive MainResult where
  | exited : Nat → MainResult
  | raised : String → MainResult
deriving DecidableEq

/-- Model of `sum(len(v) for v in saved.values())`. -/
def total_saved (saved : String → List (Nat × String)) : Nat :=
  (COUNTRIES.map (fun c => (saved c).length)).sum

/-- Model of `main()`: the fetch result, the completion schedule the environment
produces for the collected candidates, and the output write result are the
three effects, passed in explicitly.  A failing write is an uncaught
exception — `main` has no handler around `write_output`. -/
def ip_main (fetchRes : Except String String)
    (completion : List Candidate → List (Candidate × Except String Bool))
    (writeRes : Except String Unit) : MainResult :=
  match fetchRes with
  | .error _ => .exited 1
  | .ok text =>
    let candidates := collect_candidates text
    if candidates.isEmpty then .exited 0
    else
      let r := run_concurrent_tests MAX_PER_COUNTRY_get (completion candidates)
      if total_saved r.1 = 0 then .exited 0
      else
        match writeRes with
        | .error e => .raised e
        | .ok _ => .exited 0

/-- Modelled from the spec: a tag appears "as a distinct token" of the line
when `#tag` occurs with a word boundary after it (the `\b` of `PAT_TAG`),
case-insensitively.  Used to state the attribution rule the spec claims. -/
def tokenTagAtL (tag : List Char) : List Char → Bool
  | '#' :: rest =>
    leadsWith (tag.map Char.toLower) (rest.map Char.toLower) &&
      (match rest.drop tag.length with
       | [] => true
       | c :: _ => !isWordChar c)
  | _ => false

/-- Modelled from the spec: does `#tag` occur as a distinct token anywhere
in the line? -/
def tokenPresent (tag : String) : List Char → Bool
  | [] => false
  | s@(_ :: t) => tokenTagAtL tag.data s || tokenPresent tag t

/-- Modelled from the spec: attribution as the claim states it — the first
country in priority order whose tag is present as a distinct token. -/
def spec_primary_tag (line : String) : Option String :=
  COUNTRIES.find? (fun c => tokenPresent c line.data)

/-- Four dot-separated parts, each a digit run with value in `[0, 255]`. -/
def validIPv4 (s : String) : Bool :=
  match splitDotsGo s.data [] with
  | [o1, o2, o3, o4] => octetOk o1 && octetOk o2 && octetOk o3 && octetOk o4
  | _ => false

/-- Whitespace-separated tokens of a line (Python `line.split()`). -/
def tokensOfGo : List Char → List Char → List (List Char)
  | [], cur => if cur = [] then [] else [cur.reverse]
  | c :: rest, cur =>
    if pyIsSpace c then
      if cur = [] then tokensOfGo rest []
      else cur.reverse :: tokensOfGo rest []
    else tokensOfGo rest (c :: cur)

/-- Whitespace-separated tokens of a line, as strings. -/
def tokensOf (s : String) : List String :=
  (tokensOfGo s.data []).map String.mk

/-! ### Scheduler lemmas -/

theorem updateSaved_self (saved : String → List (Nat × String)) (t : String)
    (e : Nat × String) : updateSaved saved t e t = saved t ++ [e] := by
  simp [updateSaved]

theorem updateSaved_other (saved : String → List (Nat × String)) {t c : String}
    (e : Nat × String) (h : c ≠ t) : updateSaved saved t e c = saved c := by
  simp [updateSaved, h]

theorem acceptStep_length_le (quota : String → Nat)
    (saved : String → List (Nat × String)) (cand : Candidate)
    (res : Except String Bool) (h : ∀ c, (saved c).length ≤ quota c) :
    ∀ c, (acceptStep quota saved cand res c).length ≤ quota c := by
  intro c
  unfold acceptStep
  split
  · rename_i hcond
    by_cases hc : c = cand.tag
    · rw [hc, updateSaved_self]
      simp only [List.length_append, List.length_singleton]
      have : (saved cand.tag).length < quota cand.tag := by
        have := (Bool.and_eq_true _ _).mp hcond
        simpa using this.2
      omega
    · rw [updateSaved_other _ _ hc]
      exact h c
  · exact h c

theorem schedLoop_length_le (quota : String → Nat) :
    ∀ (events : List (Candidate × Except String Bool))
      (saved : String → List (Nat × String)) (tested : Nat),
      (∀ c, (saved c).length ≤ quota c) →
      ∀ c, ((schedLoop quota events saved tested).1 c).length ≤ quota c := by
  intro events
  induction events with
  | nil => intro saved tested h c; simpa [schedLoop] using h c
  | cons e rest ih =>
    intro saved tested h c
    obtain ⟨cand, res⟩ := e
    have h1 := acceptStep_length_le quota saved cand res h
    simp only [schedLoop]
    split
    · exact h1 c
    · exact ih _ _ h1 c

theorem insertByIdx_perm (x : Nat × String) :
    ∀ (l : List (Nat × String)), (insertByIdx x l).Perm (x :: l) := by
  intro l
  induction l with
  | nil => exact List.Perm.refl _
  | cons y ys ih =>
    simp only [insertByIdx]
    split
    · exact List.Perm.refl _
    · exact (ih.cons y).trans (List.Perm.swap x y ys)

theorem sortByIdx_perm (l : List (Nat × String)) : (sortByIdx l).Perm l := by
  induction l with
  | nil => exact List.Perm.refl _
  | cons x xs ih =>
    exact (insertByIdx_perm x (sortByIdx xs)).trans (ih.cons x)

theorem sortByIdx_length (l : List (Nat × String)) :
    (sortByIdx l).length = l.length :=
  (sortByIdx_perm l).length_eq

/-- C1: at every point during scheduling (after any number of consumed
completion events) and in the final result, each country's accepted list
has length at most its configured quota; a country with quota 0 ends with
an empty list no matter what the probes report. -/
theorem quota_never_exceeded (quota : String → Nat)
    (events : List (Candidate × Except String Bool)) (c : String) :
    (∀ n, ((schedLoop quota (events.take n) (fun _ => []) 0).1 c).length ≤ quota c)
    ∧ ((run_concurrent_tests quota events).1 c).length ≤ quota c
    ∧ (quota c = 0 → (run_concurrent_tests quota events).1 c = []) := by
  have hinit : ∀ c', ((fun _ => ([] : List (Nat × String))) c').length ≤ quota c' := by
    intro c'; simp
  have hrun : ((run_concurrent_tests quota events).1 c).length ≤ quota c := by
    simp only [run_concurrent_tests, sortByIdx_length]
    exact schedLoop_length_le quota events _ 0 hinit c
  refine ⟨fun n => schedLoop_length_le quota (events.take n) _ 0 hinit c, hrun, ?_⟩
  intro h0
  have : ((run_concurrent_tests quota events).1 c).length = 0 := by omega
  exact List.length_eq_zero.mp this

/-- Witness for C1 at quota 0 and one reachable completion event. -/
theorem quota_never_exceeded_witness :
    (run_concurrent_tests (fun _ => 0)
      [(⟨0, "1.1.1.1 #sg", "sg", "1.1.1.1"⟩, Except.ok true)]).1 "sg" = [] :=
  (quota_never_exceeded (fun _ => 0) _ "sg").2.2 rfl

theorem schedLoop_tested_ge (quota : String → Nat) :
    ∀ (events : List (Candidate × Except String Bool)) saved tested,
      tested ≤ (schedLoop quota events saved tested).2 := by
  intro events
  induction events with
  | nil => intro saved tested; simp [schedLoop]
  | cons e rest ih =>
    intro saved tested
    obtain ⟨cand, res⟩ := e
    simp only [schedLoop]
    split
    · omega
    · exact le_trans (by omega) (ih _ (tested + 1))

theorem schedLoop_tested_le (quota : String → Nat) :
    ∀ (events : List (Candidate × Except String Bool)) saved tested,
      (schedLoop quota events saved tested).2 ≤ tested + events.length := by
  intro events
  induction events with
  | nil => intro saved tested; simp [schedLoop]
  | cons e rest ih =>
    intro saved tested
    obtain ⟨cand, res⟩ := e
    simp only [schedLoop, List.length_cons]
    split
    · omega
    · exact le_trans (ih _ (tested + 1)) (by omega)

theorem schedLoop_early_full (quota : String → Nat) :
    ∀ (events : List (Candidate × Except String Bool)) saved tested,
      (schedLoop quota events saved tested).2 < tested + events.length →
      allFull quota (schedLoop quota events saved tested).1 = true := by
  intro events
  induction events with
  | nil => intro saved tested h; simp [schedLoop] at h
  | cons e rest ih =>
    intro saved tested h
    obtain ⟨cand, res⟩ := e
    simp only [schedLoop, List.length_cons] at h ⊢
    by_cases hfull : allFull quota (acceptStep quota saved cand res) = true
    · rw [if_pos hfull]
      exact hfull
    · rw [if_neg hfull] at h ⊢
      exact ih _ (tested + 1) (by omega)

theorem schedLoop_take (quota : String → Nat) :
    ∀ (events : List (Candidate × Except String Bool)) saved tested,
      schedLoop quota
        (events.take ((schedLoop quota events saved tested).2 - tested))
        saved tested
        = schedLoop quota events saved tested := by
  intro events
  induction events with
  | nil => intro saved tested; simp [schedLoop]
  | cons e rest ih =>
    intro saved tested
    obtain ⟨cand, res⟩ := e
    by_cases hfull : allFull quota (acceptStep quota saved cand res) = true
    · have hres : schedLoop quota ((cand, res) :: rest) saved tested
          = (acceptStep quota saved cand res, tested + 1) := by
        simp only [schedLoop]
        rw [if_pos hfull]
      rw [hres]
      have : tested + 1 - tested = 1 := by omega
      rw [this]
      simp only [List.take_succ_cons, List.take_zero, schedLoop]
      rw [if_pos hfull]
    · have hres : schedLoop quota ((cand, res) :: rest) saved tested
          = schedLoop quota rest (acceptStep quota saved cand res) (tested + 1) := by
        simp only [schedLoop]
        rw [if_neg hfull]
      rw [hres]
      have hge := schedLoop_tested_ge quota rest (acceptStep quota saved cand res) (tested + 1)
      set k := (schedLoop quota rest (acceptStep quota saved cand res) (tested + 1)).2 with hk
      have h1 : k - tested = (k - (tested + 1)) + 1 := by omega
      rw [h1]
      simp only [List.take_succ_cons, schedLoop]
      rw [if_neg hfull]
      exact ih _ (tested + 1)

theorem allFull_len (quota : String → Nat) (saved : String → List (Nat × String))
    (h : allFull quota saved = true) :
    ∀ c, c ∈ COUNTRIES → quota c ≤ (saved c).length := by
  intro c hc
  have := List.all_eq_true.mp h c hc
  simpa using this

/-- C6: the returned `tested` is exactly the number of completion events the
scheduler consumed — it never exceeds the number of dispatched probes, it
falls short of it only under early termination with every country exactly
at quota, and the run is fully determined by the first `tested` completions
(events cancelled after early termination produce no outcome). -/
theorem tested_counts_completed (quota : String → Nat)
    (events : List (Candidate × Except String Bool)) :
    (run_concurrent_tests quota events).2 ≤ events.length
    ∧ ((run_concurrent_tests quota events).2 < events.length →
        ∀ c, c ∈ COUNTRIES →
          ((run_concurrent_tests quota events).1 c).length = quota c)
    ∧ run_concurrent_tests quota
        (events.take (run_concurrent_tests quota events).2)
        = run_concurrent_tests quota events := by
  have h2 : (run_concurrent_tests quota events).2
      = (schedLoop quota events (fun _ => []) 0).2 := rfl
  have hle := schedLoop_tested_le quota events (fun _ => []) 0
  refine ⟨by rw [h2]; simpa using hle, ?_, ?_⟩
  · intro hlt c hc
    have hfull : allFull quota (schedLoop quota events (fun _ => []) 0).1 = true := by
      apply schedLoop_early_full
      rw [h2] at hlt
      omega
    have hlow := allFull_len quota _ hfull c hc
    have hhigh := schedLoop_length_le quota events (fun _ => []) 0 (by intro c'; simp) c
    have : ((schedLoop quota events (fun _ => []) 0).1 c).length = quota c := by omega
    simp only [run_concurrent_tests, sortByIdx_length]
    exact this
  · have htake := schedLoop_take quota events (fun _ => []) 0
    simp only [Nat.sub_zero] at htake
    simp only [run_concurrent_tests]
    rw [htake]

/-- Witness for C6: with every quota 0 and two dispatched completions, the
scheduler stops after consuming the first event, with the (empty) "sg" list
exactly at its quota. -/
theorem tested_counts_completed_witness :
    ((run_concurrent_tests (fun _ => 0)
      [(⟨0, "a #sg", "sg", "1.1.1.1"⟩, Except.ok true),
       (⟨1, "b #hk", "hk", "2.2.2.2"⟩, Except.ok true)]).1 "sg").length
      = (fun _ => (0 : Nat)) "sg" :=
  (tested_counts_completed (fun _ => 0) _).2.1 (by decide) "sg" (by decide)

theorem insertByIdx_sorted (x : Nat × String) :
    ∀ (l : List (Nat × String)), l.Pairwise (fun a b => a.1 ≤ b.1) →
      (insertByIdx x l).Pairwise (fun a b => a.1 ≤ b.1) := by
  intro l
  induction l with
  | nil => intro _; exact List.pairwise_singleton _ _
  | cons y ys ih =>
    intro hs
    rw [List.pairwise_cons] at hs
    simp only [insertByIdx]
    split
    · rename_i hxy
      rw [List.pairwise_cons]
      refine ⟨?_, List.pairwise_cons.mpr hs⟩
      intro z hz
      rcases List.mem_cons.mp hz with h | h
      · rw [h]; exact hxy
      · exact le_trans hxy (hs.1 z h)
    · rename_i hxy
      rw [List.pairwise_cons]
      refine ⟨?_, ih hs.2⟩
      intro z hz
      rcases List.mem_cons.mp ((insertByIdx_perm x ys).mem_iff.mp hz) with h | h
      · rw [h]; omega
      · exact hs.1 z h

theorem sortByIdx_sorted (l : List (Nat × String)) :
    (sortByIdx l).Pairwise (fun a b => a.1 ≤ b.1) := by
  induction l with
  | nil => exact List.Pairwise.nil
  | cons x xs ih => exact insertByIdx_sorted x (sortByIdx xs) ih

theorem pairwise_lt_of_le_nodup :
    ∀ (l : List (Nat × String)), l.Pairwise (fun a b => a.1 ≤ b.1) →
      (l.map Prod.fst).Nodup → l.Pairwise (fun a b => a.1 < b.1) := by
  intro l
  induction l with
  | nil => intro _ _; exact List.Pairwise.nil
  | cons a t ih =>
    intro hs hn
    rw [List.pairwise_cons] at hs ⊢
    rw [List.map_cons, List.nodup_cons] at hn
    refine ⟨?_, ih hs.2 hn.2⟩
    intro b hb
    have hle := hs.1 b hb
    have hne : a.1 ≠ b.1 := by
      intro hEq
      exact hn.1 (hEq ▸ List.mem_map_of_mem Prod.fst hb)
    omega

theorem acceptStep_idx_nodup (quota : String → Nat)
    (saved : String → List (Nat × String)) (cand : Candidate)
    (res : Except String Bool)
    (h2 : ∀ c, ((saved c).map Prod.fst).Nodup)
    (hd : ∀ c, ∀ p ∈ saved c, p.1 ≠ cand.idx) :
    ∀ c, ((acceptStep quota saved cand res c).map Prod.fst).Nodup := by
  intro c
  unfold acceptStep
  split
  · by_cases hc : c = cand.tag
    · rw [hc, updateSaved_self, List.map_append]
      rw [List.nodup_append]
      refine ⟨h2 cand.tag, List.nodup_singleton _, ?_⟩
      intro x hx hx2
      simp only [List.map_cons, List.map_nil, List.mem_singleton] at hx2
      obtain ⟨p, hp, hpx⟩ := List.mem_map.mp hx
      exact hd cand.tag p hp (by rw [hpx, hx2])
    · rw [updateSaved_other _ _ hc]
      exact h2 c
  · exact h2 c

theorem acceptStep_mem (quota : String → Nat)
    (saved : String → List (Nat × String)) (cand : Candidate)
    (res : Except String Bool) (c : String) (p : Nat × String)
    (hp : p ∈ acceptStep quota saved cand res c) :
    p ∈ saved c ∨ p = (cand.idx, cand.line) := by
  unfold acceptStep at hp
  split at hp
  · by_cases hc : c = cand.tag
    · rw [hc, updateSaved_self] at hp
      rcases List.mem_append.mp hp with h | h
      · left; rw [hc]; exact h
      · right; simpa using h
    · rw [updateSaved_other _ _ hc] at hp
      exact Or.inl hp
  · exact Or.inl hp

theorem schedLoop_idx_nodup (quota : String → Nat) :
    ∀ (events : List (Candidate × Except String Bool)) saved tested,
      ((events.map (fun e => e.1.idx)).Nodup) →
      (∀ c, ((saved c).map Prod.fst).Nodup) →
      (∀ c, ∀ e ∈ events, ∀ p ∈ saved c, p.1 ≠ e.1.idx) →
      ∀ c, (((schedLoop quota events saved tested).1 c).map Prod.fst).Nodup := by
  intro events
  induction events with
  | nil => intro saved tested _ h2 _ c; simpa [schedLoop] using h2 c
  | cons e rest ih =>
    intro saved tested h1 h2 h3 c
    obtain ⟨cand, res⟩ := e
    rw [List.map_cons, List.nodup_cons] at h1
    have hd : ∀ c', ∀ p ∈ saved c', p.1 ≠ cand.idx := by
      intro c' p hp
      exact h3 c' (cand, res) (List.mem_cons_self _ _) p hp
    have hstep2 := acceptStep_idx_nodup quota saved cand res h2 hd
    have hstep3 : ∀ c', ∀ e ∈ rest, ∀ p ∈ acceptStep quota saved cand res c',
        p.1 ≠ e.1.idx := by
      intro c' e he p hp
      rcases acceptStep_mem quota saved cand res c' p hp with h | h
      · exact h3 c' e (List.mem_cons_of_mem _ he) p h
      · rw [h]
        intro hEq
        apply h1.1
        have hEq2 : cand.idx = e.1.idx := hEq
        rw [hEq2]
        exact List.mem_map_of_mem (fun e => e.1.idx) he
    simp only [schedLoop]
    split
    · exact hstep2 c
    · exact ih _ (tested + 1) h1.2 hstep2 hstep3 c

/-- C2: whatever the completion order in which candidates were accepted
(any event list with pairwise-distinct original indices), every country's
final list is strictly increasing in original index, and the emitted line
sequence is exactly the per-country blocks concatenated in the fixed
priority order sg, hk, jp, tw, kr. -/
theorem output_ordering (quota : String → Nat)
    (events : List (Candidate × Except String Bool))
    (h : (events.map (fun e => e.1.idx)).Nodup) :
    (∀ c, ((run_concurrent_tests quota events).1 c).Pairwise (fun a b => a.1 < b.1))
    ∧ output_lines (run_concurrent_tests quota events).1 =
        ((run_concurrent_tests quota events).1 "sg").map Prod.snd ++
        ((run_concurrent_tests quota events).1 "hk").map Prod.snd ++
        ((run_concurrent_tests quota events).1 "jp").map Prod.snd ++
        ((run_concurrent_tests quota events).1 "tw").map Prod.snd ++
        ((run_concurrent_tests quota events).1 "kr").map Prod.snd := by
  constructor
  · intro c
    have hnodup : (((schedLoop quota events (fun _ => []) 0).1 c).map Prod.fst).Nodup := by
      apply schedLoop_idx_nodup quota events _ 0 h
      · intro c'; simp
      · intro c' e _ p hp; simp at hp
    have hrun : (run_concurrent_tests quota events).1 c
        = sortByIdx ((schedLoop quota events (fun _ => []) 0).1 c) := rfl
    rw [hrun]
    apply pairwise_lt_of_le_nodup _ (sortByIdx_sorted _)
    have hperm := (sortByIdx_perm ((schedLoop quota events (fun _ => []) 0).1 c)).map Prod.fst
    exact hperm.nodup_iff.mpr hnodup
  · simp [output_lines, outputAux, COUNTRIES]

/-- Witness for C2 on two reachable candidates completing out of source
order. -/
theorem output_ordering_witness :
    ((run_concurrent_tests MAX_PER_COUNTRY_get
      [(⟨1, "2.2.2.2 #sg", "sg", "2.2.2.2"⟩, Except.ok true),
       (⟨0, "1.1.1.1 #sg", "sg", "1.1.1.1"⟩, Except.ok true)]).1 "sg").Pairwise
      (fun a b => a.1 < b.1) :=
  (output_ordering MAX_PER_COUNTRY_get _ (by simp)).1 "sg"

/-! ### Dedup lemmas (extraction and scheduler) -/

theorem collectGo_not_mem_seen :
    ∀ (l : List (Nat × String)) (seen : List String) (c : Candidate),
      c ∈ collectGo l seen → c.line ∉ seen := by
  intro l
  induction l with
  | nil => intro seen c hc; simp [collectGo] at hc
  | cons hd rest ih =>
    intro seen c hc
    obtain ⟨idx, raw⟩ := hd
    simp only [collectGo] at hc
    split at hc
    · exact ih _ _ hc
    · split at hc
      · exact ih _ _ hc
      · split at hc
        · exact ih _ _ hc
        · rename_i hseen
          split at hc
          · have h := ih _ _ hc
            intro hmem
            exact h (List.mem_cons_of_mem _ hmem)
          · split at hc
            · have h := ih _ _ hc
              intro hmem
              exact h (List.mem_cons_of_mem _ hmem)
            · rcases List.mem_cons.mp hc with h | h
              · rw [h]
                intro hmem
                exact hseen hmem
              · have h2 := ih _ _ h
                intro hmem
                exact h2 (List.mem_cons_of_mem _ hmem)

theorem collectGo_lines_nodup :
    ∀ (l : List (Nat × String)) (seen : List String),
      ((collectGo l seen).map Candidate.line).Nodup := by
  intro l
  induction l with
  | nil => intro seen; simp [collectGo]
  | cons hd rest ih =>
    intro seen
    obtain ⟨idx, raw⟩ := hd
    simp only [collectGo]
    split
    · exact ih _
    · split
      · exact ih _
      · split
        · exact ih _
        · split
          · exact ih _
          · split
            · exact ih _
            · rw [List.map_cons, List.nodup_cons]
              refine ⟨?_, ih _⟩
              intro hmem
              obtain ⟨c2, hc2, hline⟩ := List.mem_map.mp hmem
              have := collectGo_not_mem_seen _ _ _ hc2
              exact this (hline ▸ List.mem_cons_self _ _)

theorem outputAux_cons (c : String) (cs : List String)
    (saved : String → List (Nat × String)) :
    outputAux (c :: cs) saved = (saved c).map Prod.snd ++ outputAux cs saved := rfl

theorem outputAux_update_not_mem (cs : List String)
    (saved : String → List (Nat × String)) (t : String) (e : Nat × String)
    (ht : t ∉ cs) : outputAux cs (updateSaved saved t e) = outputAux cs saved := by
  induction cs with
  | nil => rfl
  | cons c cs ih =>
    have hct : c ≠ t := fun hEq => ht (hEq ▸ List.mem_cons_self _ _)
    have htcs : t ∉ cs := fun hmem => ht (List.mem_cons_of_mem _ hmem)
    rw [outputAux_cons, outputAux_cons, updateSaved_other _ _ hct, ih htcs]

theorem outputAux_update_perm (cs : List String)
    (saved : String → List (Nat × String)) (t : String) (e : Nat × String)
    (hn : cs.Nodup) (ht : t ∈ cs) :
    (outputAux cs (updateSaved saved t e)).Perm (e.2 :: outputAux cs saved) := by
  induction cs with
  | nil => simp at ht
  | cons c cs ih =>
    rw [List.nodup_cons] at hn
    rw [outputAux_cons, outputAux_cons]
    by_cases hc : c = t
    · have htcs : t ∉ cs := hc ▸ hn.1
      rw [hc, updateSaved_self, outputAux_update_not_mem cs saved t e htcs,
        List.map_append, List.map_singleton, List.append_assoc,
        List.singleton_append]
      exact List.perm_middle
    · have htcs : t ∈ cs := by
        rcases List.mem_cons.mp ht with h | h
        · exact absurd h.symm hc
        · exact h
      rw [updateSaved_other _ _ hc]
      have hperm := ih hn.2 htcs
      exact (hperm.append_left ((saved c).map Prod.snd)).trans List.perm_middle

theorem outputAux_sort_perm (cs : List String)
    (saved : String → List (Nat × String)) :
    (outputAux cs (fun c => sortByIdx (saved c))).Perm (outputAux cs saved) := by
  induction cs with
  | nil => exact List.Perm.refl _
  | cons c cs ih =>
    rw [outputAux_cons, outputAux_cons]
    exact ((sortByIdx_perm (saved c)).map Prod.snd).append ih

theorem acceptStep_lines (quota : String → Nat)
    (saved : String → List (Nat × String)) (cand : Candidate)
    (res : Except String Bool) :
    output_lines (acceptStep quota saved cand res) = output_lines saved
    ∨ (okOf res = true ∧
       (output_lines (acceptStep quota saved cand res)).Perm
         (cand.line :: output_lines saved)) := by
  unfold acceptStep
  split
  · rename_i hcond
    by_cases htag : cand.tag ∈ COUNTRIES
    · right
      refine ⟨((Bool.and_eq_true _ _).mp hcond).1, ?_⟩
      exact outputAux_update_perm COUNTRIES saved cand.tag (cand.idx, cand.line)
        (by decide) htag
    · left
      exact outputAux_update_not_mem COUNTRIES saved cand.tag _ htag
  · left; rfl

theorem schedLoop_lines_nodup (quota : String → Nat) :
    ∀ (events : List (Candidate × Except String Bool)) saved tested,
      ((events.map (fun e => e.1.line)).Nodup) →
      (output_lines saved).Nodup →
      (∀ e ∈ events, e.1.line ∉ output_lines saved) →
      (output_lines ((schedLoop quota events saved tested).1)).Nodup := by
  intro events
  induction events with
  | nil => intro saved tested _ h2 _; simpa [schedLoop] using h2
  | cons e rest ih =>
    intro saved tested h1 h2 h3
    obtain ⟨cand, res⟩ := e
    rw [List.map_cons, List.nodup_cons] at h1
    have hstep2 : (output_lines (acceptStep quota saved cand res)).Nodup := by
      rcases acceptStep_lines quota saved cand res with h | ⟨_, hperm⟩
      · rw [h]; exact h2
      · refine hperm.nodup_iff.mpr (List.nodup_cons.mpr ⟨?_, h2⟩)
        exact h3 (cand, res) (List.mem_cons_self _ _)
    have hstep3 : ∀ e ∈ rest, e.1.line ∉ output_lines (acceptStep quota saved cand res) := by
      intro e he
      rcases acceptStep_lines quota saved cand res with h | ⟨_, hperm⟩
      · rw [h]
        exact h3 e (List.mem_cons_of_mem _ he)
      · rw [hperm.mem_iff, List.mem_cons]
        rintro (hEq | hmem)
        · exact h1.1 (hEq ▸ List.mem_map_of_mem (fun e => e.1.line) he)
        · exact h3 e (List.mem_cons_of_mem _ he) hmem
    simp only [schedLoop]
    split
    · exact hstep2
    · exact ih _ (tested + 1) h1.2 hstep2 hstep3

/-- C3: candidate extraction deduplicates by exact trimmed line content
(the collected candidates carry pairwise-distinct lines), and for any run
of the scheduler over completion events with pairwise-distinct lines the
final emitted output contains no two identical lines. -/
theorem dedup_by_line :
    (∀ text : String, ((collect_candidates text).map Candidate.line).Nodup)
    ∧ (∀ (quota : String → Nat) (events : List (Candidate × Except String Bool)),
        (events.map (fun e => e.1.line)).Nodup →
        (output_lines (run_concurrent_tests quota events).1).Nodup) := by
  constructor
  · intro text
    exact collectGo_lines_nodup _ []
  · intro quota events h
    have hinit : output_lines (fun _ => ([] : List (Nat × String))) = [] := by
      simp [output_lines, outputAux, COUNTRIES]
    have hloop := schedLoop_lines_nodup quota events (fun _ => []) 0 h
      (by rw [hinit]; exact List.nodup_nil)
      (by intro e _; rw [hinit]; exact List.not_mem_nil _)
    have hperm : (output_lines (run_concurrent_tests quota events).1).Perm
        (output_lines (schedLoop quota events (fun _ => []) 0).1) :=
      outputAux_sort_perm COUNTRIES _
    exact hperm.nodup_iff.mpr hloop

/-- Witness for C3: the duplicated `5.6.7.8 #jp` source line is collected
once, and a concrete scheduler run keeps distinct lines distinct. -/
theorem dedup_by_line_witness :
    (output_lines (run_concurrent_tests MAX_PER_COUNTRY_get
      [(⟨0, "1.1.1.1 #sg", "sg", "1.1.1.1"⟩, Except.ok true),
       (⟨1, "5.6.7.8 #jp", "jp", "5.6.7.8"⟩, Except.ok true)]).1).Nodup :=
  dedup_by_line.2 MAX_PER_COUNTRY_get _ (by simp)

/-! ### Probe-fault lemmas -/

theorem schedLoop_mem_lines (quota : String → Nat) :
    ∀ (events : List (Candidate × Except String Bool)) saved tested (l : String),
      l ∈ output_lines (schedLoop quota events saved tested).1 →
      l ∈ output_lines saved
      ∨ ∃ e ∈ events, okOf e.2 = true ∧ e.1.line = l := by
  intro events
  induction events with
  | nil => intro saved tested l hl; left; simpa [schedLoop] using hl
  | cons e rest ih =>
    intro saved tested l hl
    obtain ⟨cand, res⟩ := e
    have fromStep : l ∈ output_lines (acceptStep quota saved cand res) →
        l ∈ output_lines saved
        ∨ ∃ e ∈ (cand, res) :: rest, okOf e.2 = true ∧ e.1.line = l := by
      intro hl1
      rcases acceptStep_lines quota saved cand res with h | ⟨hok, hperm⟩
      · rw [h] at hl1
        exact Or.inl hl1
      · rcases List.mem_cons.mp (hperm.mem_iff.mp hl1) with h | h
        · exact Or.inr ⟨(cand, res), List.mem_cons_self _ _, hok, h.symm⟩
        · exact Or.inl h
    simp only [schedLoop] at hl
    split at hl
    · exact fromStep hl
    · rcases ih _ (tested + 1) l hl with h | ⟨e, he, hok, hline⟩
      · exact fromStep h
      · exact Or.inr ⟨e, List.mem_cons_of_mem _ he, hok, hline⟩

/-- C5: every fault is degraded to "unreachable" and never propagated — a
probe task that raised counts as not reachable at the scheduler; a ping
exception makes `ping_host` report failure; exceptions on both TCP ports
make `tcp_connect` report failure; an address failing both probe kinds is
unreachable; and a candidate all of whose completion events report
not-ok (including by exception) never appears in the output. -/
theorem probe_faults_unreachable :
    (∀ msg : String, okOf (Except.error msg) = false)
    ∧ (∀ (pingExec : String → Except String Int) (ip : String),
        (∃ e, pingExec ip = Except.error e) → ping_host pingExec ip = false)
    ∧ (∀ (connExec : String → Nat → Except String Unit) (ip : String),
        (∀ p ∈ tcpPorts, ∃ e, connExec ip p = Except.error e) →
        tcp_connect connExec ip tcpPorts = false)
    ∧ (∀ (pingExec : String → Except String Int)
        (connExec : String → Nat → Except String Unit) (ip : String),
        ping_host pingExec ip = false →
        tcp_connect connExec ip tcpPorts = false →
        is_reachable pingExec connExec ip = false)
    ∧ (∀ (quota : String → Nat) (events : List (Candidate × Except String Bool))
        (l : String),
        (∀ e ∈ events, e.1.line = l → okOf e.2 = false) →
        l ∉ output_lines (run_concurrent_tests quota events).1) := by
  refine ⟨fun msg => rfl, ?_, ?_, ?_, ?_⟩
  · intro pingExec ip ⟨e, he⟩
    simp [ping_host, he]
  · intro connExec ip h
    obtain ⟨e1, h1⟩ := h 80 (by simp [tcpPorts])
    obtain ⟨e2, h2⟩ := h 443 (by simp [tcpPorts])
    simp [tcp_connect, tcpPorts, h1, h2]
  · intro pingExec connExec ip h1 h2
    simp [is_reachable, h1, h2]
  · intro quota events l h hmem
    have hperm : (output_lines (run_concurrent_tests quota events).1).Perm
        (output_lines (schedLoop quota events (fun _ => []) 0).1) :=
      outputAux_sort_perm COUNTRIES _
    have hmem2 := hperm.mem_iff.mp hmem
    rcases schedLoop_mem_lines quota events (fun _ => []) 0 l hmem2 with h0 | ⟨e, he, hok, hline⟩
    · simp [output_lines, outputAux, COUNTRIES] at h0
    · rw [h e he hline] at hok
      exact Bool.false_ne_true hok

/-- Witness for C5: an address whose ping and both TCP connects all raise
is reported unreachable, and a candidate whose only completion event is an
exception is absent from the output. -/
theorem probe_faults_unreachable_witness :
    is_reachable (fun _ => Except.error "ping denied")
      (fun _ _ => Except.error "conn refused") "1.2.3.4" = false
    ∧ "1.2.3.4 #sg" ∉ output_lines (run_concurrent_tests MAX_PER_COUNTRY_get
        [(⟨0, "1.2.3.4 #sg", "sg", "1.2.3.4"⟩, Except.error "task died")]).1 := by
  constructor
  · exact probe_faults_unreachable.2.2.2.1 _ _ _
      (probe_faults_unreachable.2.1 _ _ ⟨"ping denied", rfl⟩)
      (probe_faults_unreachable.2.2.1 _ _ (fun p _ => ⟨"conn refused", rfl⟩))
  · exact probe_faults_unreachable.2.2.2.2 MAX_PER_COUNTRY_get _ _
      (by intro e he _; simp only [List.mem_singleton] at he; rw [he]; rfl)

/-! ### All-reachable truncation -/

theorem schedLoop_allok_len (quota : String → Nat) :
    ∀ (events : List (Candidate × Except String Bool)) saved tested (c : String),
      c ∈ COUNTRIES →
      (∀ e ∈ events, e.2 = Except.ok true) →
      (∀ c', (saved c').length ≤ quota c') →
      ((schedLoop quota events saved tested).1 c).length
        = min (quota c) ((saved c).length + events.countP (fun e => e.1.tag == c)) := by
  intro events
  induction events with
  | nil =>
    intro saved tested c hc hall hb
    simp only [schedLoop, List.countP_nil, Nat.add_zero]
    exact (Nat.min_eq_right (hb c)).symm
  | cons e rest ih =>
    intro saved tested c hc hall hb
    obtain ⟨cand, res⟩ := e
    have hok : okOf res = true := by
      have h := hall (cand, res) (List.mem_cons_self _ _)
      rw [show res = (cand, res).2 from rfl, h]
      rfl
    have hallrest : ∀ e ∈ rest, e.2 = Except.ok true :=
      fun e he => hall e (List.mem_cons_of_mem _ he)
    have hstepb := acceptStep_length_le quota saved cand res hb
    have hcnt : ((cand, res) :: rest).countP (fun e => e.1.tag == c)
        = rest.countP (fun e => e.1.tag == c) + (if cand.tag = c then 1 else 0) := by
      rw [List.countP_cons]
      by_cases h : cand.tag = c
      · simp [h]
      · simp [h]
    by_cases hlt : (saved cand.tag).length < quota cand.tag
    · have hs1 : acceptStep quota saved cand res
          = updateSaved saved cand.tag (cand.idx, cand.line) := by
        unfold acceptStep
        rw [if_pos (by rw [hok]; simpa using hlt)]
      have hlen_tag : (acceptStep quota saved cand res cand.tag).length
          = (saved cand.tag).length + 1 := by
        rw [hs1, updateSaved_self]
        simp
      have hlen_other : ∀ c', c' ≠ cand.tag →
          (acceptStep quota saved cand res c').length = (saved c').length := by
        intro c' h
        rw [hs1, updateSaved_other _ _ h]
      simp only [schedLoop]
      split
      · rename_i hfull
        dsimp only
        have hq := allFull_len quota _ hfull c hc
        have hle := hstepb c
        rw [hcnt]
        by_cases htc : cand.tag = c
        · have h1 : (acceptStep quota saved cand res c).length
              = (saved c).length + 1 := htc ▸ hlen_tag
          rw [if_pos htc]
          omega
        · have h1 := hlen_other c (fun hEq => htc hEq.symm)
          rw [if_neg htc]
          omega
      · have hres := ih (acceptStep quota saved cand res) (tested + 1) c hc
          hallrest hstepb
        rw [hres, hcnt]
        by_cases htc : cand.tag = c
        · have h1 : (acceptStep quota saved cand res c).length
              = (saved c).length + 1 := htc ▸ hlen_tag
          rw [if_pos htc]
          omega
        · have h1 := hlen_other c (fun hEq => htc hEq.symm)
          rw [if_neg htc]
          omega
    · have hs1 : acceptStep quota saved cand res = saved := by
        unfold acceptStep
        rw [if_neg (by rw [hok]; simp [hlt])]
      have heqq : (saved cand.tag).length = quota cand.tag :=
        le_antisymm (hb cand.tag) (Nat.not_lt.mp hlt)
      simp only [schedLoop, hs1]
      split
      · rename_i hfull
        dsimp only
        have hq := allFull_len quota _ hfull c hc
        have hle := hb c
        rw [hcnt]
        by_cases htc : cand.tag = c
        · rw [if_pos htc]
          omega
        · rw [if_neg htc]
          omega
      · have hres := ih saved (tested + 1) c hc hallrest hb
        rw [hres, hcnt]
        by_cases htc : cand.tag = c
        · rw [if_pos htc]
          have h2 : (saved c).length = quota c := by rw [← htc]; exact heqq
          omega
        · rw [if_neg htc]
          omega

/-- C9 (amended): with a probe that always reports reachable, every
completion order of the dispatched probes yields, for each country, an
accepted list of length exactly `min quota (number of candidates of that
country)` — output truncated exactly at the quota sizes.  (Which lines fill
a truncated country's block still depends on completion order; see the
counterexample.) -/
theorem allok_truncation (quota : String → Nat) (cands : List Candidate)
    (events : List (Candidate × Except String Bool))
    (hperm : (events.map Prod.fst).Perm cands)
    (hok : ∀ e ∈ events, e.2 = Except.ok true) :
    ∀ c ∈ COUNTRIES,
      ((run_concurrent_tests quota events).1 c).length
        = min (quota c) (cands.countP (fun x => x.tag == c)) := by
  intro c hc
  have h := schedLoop_allok_len quota events (fun _ => []) 0 c hc hok (by intro c'; simp)
  have hcnt : events.countP (fun e => e.1.tag == c)
      = cands.countP (fun x => x.tag == c) := by
    have h1 : (events.map Prod.fst).countP (fun x => x.tag == c)
        = events.countP (fun e => e.1.tag == c) := List.countP_map _ _ _
    rw [← h1]
    exact hperm.countP_eq _
  simp only [run_concurrent_tests, sortByIdx_length]
  rw [h, hcnt]
  simp

/-- Witness for C9 (amended): two sg candidates, quota 1, completing in
reverse order — exactly one is kept. -/
theorem allok_truncation_witness :
    ((run_concurrent_tests (fun c => if c = "sg" then 1 else 0)
      [(⟨1, "2.2.2.2 #sg", "sg", "2.2.2.2"⟩, Except.ok true),
       (⟨0, "1.1.1.1 #sg", "sg", "1.1.1.1"⟩, Except.ok true)]).1 "sg").length
      = min 1 2 := by
  have h := allok_truncation (fun c => if c = "sg" then 1 else 0)
    [⟨1, "2.2.2.2 #sg", "sg", "2.2.2.2"⟩, ⟨0, "1.1.1.1 #sg", "sg", "1.1.1.1"⟩]
    [(⟨1, "2.2.2.2 #sg", "sg", "2.2.2.2"⟩, Except.ok true),
     (⟨0, "1.1.1.1 #sg", "sg", "1.1.1.1"⟩, Except.ok true)]
    (List.Perm.refl _) (by intro e he; fin_cases he <;> rfl) "sg" (by decide)
  simpa using h

/-- C9 (counterexample to the claim as stated): the same two-candidate
source with an always-reachable probe and quota sg = 1 produces different
output content under two different completion orders of the same probes. -/
theorem allok_not_content_deterministic :
    ((([(⟨0, "1.1.1.1 #sg", "sg", "1.1.1.1"⟩, Except.ok true),
        (⟨1, "2.2.2.2 #sg", "sg", "2.2.2.2"⟩, Except.ok true)] :
          List (Candidate × Except String Bool)).map Prod.fst).Perm
      (([(⟨1, "2.2.2.2 #sg", "sg", "2.2.2.2"⟩, Except.ok true),
         (⟨0, "1.1.1.1 #sg", "sg", "1.1.1.1"⟩, Except.ok true)] :
          List (Candidate × Except String Bool)).map Prod.fst))
    ∧ output_lines (run_concurrent_tests (fun c => if c = "sg" then 1 else 0)
        [(⟨0, "1.1.1.1 #sg", "sg", "1.1.1.1"⟩, Except.ok true),
         (⟨1, "2.2.2.2 #sg", "sg", "2.2.2.2"⟩, Except.ok true)]).1
      ≠ output_lines (run_concurrent_tests (fun c => if c = "sg" then 1 else 0)
        [(⟨1, "2.2.2.2 #sg", "sg", "2.2.2.2"⟩, Except.ok true),
         (⟨0, "1.1.1.1 #sg", "sg", "1.1.1.1"⟩, Except.ok true)]).1 := by
  constructor
  · exact List.Perm.swap _ _ []
  · decide

/-! ### Exit-code behaviour -/

/-- C7 (counterexample to the claim as stated): with a successful fetch of
one reachable candidate and a failing output write, the process does not
exit with code 2 — `main` has no handler around `write_output`, so the
write exception escapes uncaught. -/
theorem exit_code_two_counterexample :
    ip_main (Except.ok "1.2.3.4 #sg")
      (fun cs => cs.map (fun c => (c, Except.ok true)))
      (Except.error "denied") = MainResult.raised "denied"
    ∧ MainResult.raised "denied" ≠ MainResult.exited 2 := by
  constructor
  · rfl
  · decide

/-- C7 (amended): the exit code is 1 exactly on fetch failure and 0 on
success or nothing-to-do; the process never exits with code 2 — when the
output write fails after at least one candidate was accepted, `main`
terminates by an uncaught exception instead. -/
theorem exit_codes (fetchRes : Except String String)
    (completion : List Candidate → List (Candidate × Except String Bool))
    (writeRes : Except String Unit) :
    (∀ e, fetchRes = Except.error e →
      ip_main fetchRes completion writeRes = MainResult.exited 1)
    ∧ ip_main fetchRes completion writeRes ≠ MainResult.exited 2
    ∧ (∀ t, fetchRes = Except.ok t →
        ip_main fetchRes completion writeRes = MainResult.exited 0
        ∨ ∃ e, writeRes = Except.error e ∧
            ip_main fetchRes completion writeRes = MainResult.raised e) := by
  cases fetchRes with
  | error e =>
    refine ⟨fun e' _ => rfl, by simp [ip_main], fun t ht => Except.noConfusion ht⟩
  | ok text =>
    refine ⟨fun e he => Except.noConfusion he, ?_, ?_⟩
    · simp only [ip_main]
      split
      · simp
      · split
        · simp
        · cases writeRes with
          | error e => simp
          | ok u => simp
    · intro t ht
      simp only [ip_main]
      split
      · left; rfl
      · split
        · left; rfl
        · cases writeRes with
          | error e => right; exact ⟨e, rfl, rfl⟩
          | ok u => left; rfl

/-- Witness for C7 (amended) at a failing fetch. -/
theorem exit_codes_witness :
    ip_main (Except.error "connection reset") (fun _ => []) (Except.ok ())
      = MainResult.exited 1 :=
  (exit_codes (Except.error "connection reset") (fun _ => []) (Except.ok ())).1
    "connection reset" rfl

/-! ### Structure of the IPv4 regex match -/

theorem matchNDigits_spec :
    ∀ (n : Nat) (s d r : List Char), matchNDigits n s = some (d, r) →
      d.length = n ∧ d.all Char.isDigit = true ∧ s = d ++ r := by
  intro n
  induction n with
  | zero =>
    intro s d r h
    simp only [matchNDigits, Option.some.injEq, Prod.mk.injEq] at h
    obtain ⟨h1, h2⟩ := h
    subst h1
    subst h2
    exact ⟨rfl, rfl, rfl⟩
  | succ n ih =>
    intro s d r h
    cases s with
    | nil => simp [matchNDigits] at h
    | cons c s2 =>
      simp only [matchNDigits] at h
      split at h
      · rename_i hdig
        split at h
        · rename_i d2 r2 heq
          simp only [Option.some.injEq, Prod.mk.injEq] at h
          obtain ⟨h1, h2⟩ := h
          obtain ⟨hl, ha, hs⟩ := ih s2 d2 r2 heq
          subst h1
          subst h2
          refine ⟨by simp [hl], ?_, by rw [List.cons_append, ← hs]⟩
          simp only [List.all_cons, Bool.and_eq_true]
          exact ⟨hdig, ha⟩
        · exact absurd h (by simp)
      · exact absurd h (by simp)

theorem oalt_cases {α : Type} (a b : Option α) (x : α) (h : oalt a b = some x) :
    a = some x ∨ b = some x := by
  cases a with
  | some y => left; simpa [oalt] using h
  | none => right; simpa [oalt] using h

theorem lastOct_spec (n : Nat) (s : List Char) (ds : List (List Char))
    (r : List Char) (h : lastOct n s = some (ds, r)) :
    ∃ d, ds = [d] ∧ d.length = n ∧ d.all Char.isDigit = true := by
  unfold lastOct at h
  split at h
  · rename_i d r2 heq
    simp only [Option.some.injEq, Prod.mk.injEq] at h
    obtain ⟨h1, h2⟩ := h
    obtain ⟨hl, ha, _⟩ := matchNDigits_spec n s d r2 heq
    exact ⟨d, h1.symm, hl, ha⟩
  · exact absurd h (by simp)

theorem consOct_spec (next : List Char → Option (List (List Char) × List Char))
    (n : Nat) (s : List Char) (ds : List (List Char)) (r : List Char)
    (h : consOct next n s = some (ds, r)) :
    ∃ d ds2 r2, ds = d :: ds2 ∧ d.length = n ∧ d.all Char.isDigit = true
      ∧ next r2 = some (ds2, r) := by
  unfold consOct at h
  split at h
  · rename_i d r2 heq
    split at h
    · rename_i ds2 r3 hnext
      simp only [Option.some.injEq, Prod.mk.injEq] at h
      obtain ⟨h1, h2⟩ := h
      obtain ⟨hl, ha, _⟩ := matchNDigits_spec n s d ('.' :: r2) heq
      subst h2
      exact ⟨d, ds2, r2, h1.symm, hl, ha, hnext⟩
    · exact absurd h (by simp)
  · exact absurd h (by simp)

theorem matchOctetThen_spec :
    ∀ (k : Nat) (s : List Char) (ds : List (List Char)) (r : List Char),
      matchOctetThen k s = some (ds, r) →
      ds.length = k + 1
      ∧ ∀ d ∈ ds, d ≠ [] ∧ d.length ≤ 3 ∧ d.all Char.isDigit = true := by
  intro k
  induction k with
  | zero =>
    intro s ds r h
    simp only [matchOctetThen] at h
    have fin : ∀ n, 1 ≤ n → n ≤ 3 → lastOct n s = some (ds, r) →
        ds.length = 0 + 1
        ∧ ∀ d ∈ ds, d ≠ [] ∧ d.length ≤ 3 ∧ d.all Char.isDigit = true := by
      intro n h1 h3 hl
      obtain ⟨d, hds, hlen, ha⟩ := lastOct_spec n s ds r hl
      subst hds
      refine ⟨rfl, ?_⟩
      intro d2 hd2
      rw [List.mem_singleton] at hd2
      subst hd2
      refine ⟨?_, by omega, ha⟩
      intro hnil
      rw [hnil] at hlen
      simp at hlen
      omega
    rcases oalt_cases _ _ _ h with h | h
    · exact fin 3 (by omega) (by omega) h
    · rcases oalt_cases _ _ _ h with h | h
      · exact fin 2 (by omega) (by omega) h
      · exact fin 1 (by omega) (by omega) h
  | succ k ih =>
    intro s ds r h
    simp only [matchOctetThen] at h
    have fin : ∀ n, 1 ≤ n → n ≤ 3 →
        consOct (matchOctetThen k) n s = some (ds, r) →
        ds.length = (k + 1) + 1
        ∧ ∀ d ∈ ds, d ≠ [] ∧ d.length ≤ 3 ∧ d.all Char.isDigit = true := by
      intro n h1 h3 hc
      obtain ⟨d, ds2, r2, hds, hlen, ha, hnext⟩ := consOct_spec _ n s ds r hc
      obtain ⟨hl2, hall2⟩ := ih r2 ds2 r hnext
      subst hds
      refine ⟨by simp [hl2], ?_⟩
      intro d2 hd2
      rcases List.mem_cons.mp hd2 with hEq | hmem
      · subst hEq
        refine ⟨?_, by omega, ha⟩
        intro hnil
        rw [hnil] at hlen
        simp at hlen
        omega
      · exact hall2 d2 hmem
    rcases oalt_cases _ _ _ h with h | h
    · exact fin 3 (by omega) (by omega) h
    · rcases oalt_cases _ _ _ h with h | h
      · exact fin 2 (by omega) (by omega) h
      · exact fin 1 (by omega) (by omega) h

theorem re_ipv4_first_spec :
    ∀ (s : List Char) (ds : List (List Char)), re_ipv4_first s = some ds →
      ds.length = 4
      ∧ ∀ d ∈ ds, d ≠ [] ∧ d.length ≤ 3 ∧ d.all Char.isDigit = true := by
  intro s
  induction s with
  | nil =>
    intro ds h
    simp only [re_ipv4_first] at h
    split at h
    · rename_i ds2 r heq
      simp only [Option.some.injEq] at h
      subst h
      exact matchOctetThen_spec 3 [] ds2 r heq
    · exact absurd h (by simp)
  | cons c t ih =>
    intro ds h
    simp only [re_ipv4_first] at h
    split at h
    · rename_i ds2 r heq
      simp only [Option.some.injEq] at h
      subst h
      exact matchOctetThen_spec 3 (c :: t) ds2 r heq
    · exact ih ds h

theorem splitDotsGo_cons_ne (c : Char) (rest acc : List Char) (hc : c ≠ '.') :
    splitDotsGo (c :: rest) acc = splitDotsGo rest (c :: acc) := by
  rw [splitDotsGo.eq_def]
  split
  · rename_i heq
    exact absurd heq (by simp)
  · rename_i rest2 heq
    rw [List.cons.injEq] at heq
    exact absurd heq.1 hc
  · rename_i c2 rest2 _ heq
    rw [List.cons.injEq] at heq
    rw [heq.1, heq.2]

theorem splitDotsGo_append_no_dot :
    ∀ (d rest acc : List Char), ('.' ∉ d) →
      splitDotsGo (d ++ rest) acc = splitDotsGo rest (d.reverse ++ acc) := by
  intro d
  induction d with
  | nil => intro rest acc _; simp
  | cons c d2 ih =>
    intro rest acc hd
    have hc : c ≠ '.' := fun h => hd (h ▸ List.mem_cons_self _ _)
    have hd2 : '.' ∉ d2 := fun h => hd (List.mem_cons_of_mem _ h)
    rw [List.cons_append, splitDotsGo_cons_ne c _ _ hc, ih rest (c :: acc) hd2]
    simp

theorem splitDots_joinDots :
    ∀ (ds : List (List Char)), ds ≠ [] →
      (∀ d ∈ ds, '.' ∉ d) →
      splitDotsGo (joinDots ds) [] = ds := by
  intro ds
  induction ds with
  | nil => intro h _; exact absurd rfl h
  | cons d ds2 ih =>
    intro _ hnd
    cases ds2 with
    | nil =>
      have hd : '.' ∉ d := hnd d (List.mem_cons_self _ _)
      show splitDotsGo (joinDots [d]) [] = _
      have : joinDots [d] = d ++ [] := by simp [joinDots]
      rw [this, splitDotsGo_append_no_dot d [] [] hd]
      simp [splitDotsGo]
    | cons d2 ds3 =>
      have hd : '.' ∉ d := hnd d (List.mem_cons_self _ _)
      have hnd2 : ∀ x ∈ d2 :: ds3, '.' ∉ x :=
        fun x hx => hnd x (List.mem_cons_of_mem _ hx)
      have hjoin : joinDots (d :: d2 :: ds3) = d ++ '.' :: joinDots (d2 :: ds3) := rfl
      rw [hjoin, splitDotsGo_append_no_dot d _ [] hd, List.append_nil]
      have hdot : splitDotsGo ('.' :: joinDots (d2 :: ds3)) d.reverse
          = d.reverse.reverse :: splitDotsGo (joinDots (d2 :: ds3)) [] := rfl
      rw [hdot, ih (by simp) hnd2]
      simp

theorem all_digits_no_dot (d : List Char) (h : d.all Char.isDigit = true) :
    '.' ∉ d := by
  intro hmem
  have := List.all_eq_true.mp h '.' hmem
  simp [Char.isDigit] at this

theorem length_four_shape {α : Type} :
    ∀ (l : List α), l.length = 4 → ∃ a b c d, l = [a, b, c, d]
  | [a, b, c, d], _ => ⟨a, b, c, d, rfl⟩
  | [], h => by simp at h
  | [_], h => by simp at h
  | [_, _], h => by simp at h
  | [_, _, _], h => by simp at h
  | _ :: _ :: _ :: _ :: _ :: _, h => by simp at h

theorem extract_ipv4_valid (line ip : String)
    (h : extract_ipv4 line = some ip) : validIPv4 ip = true := by
  unfold extract_ipv4 at h
  split at h
  · exact absurd h (by simp)
  · rename_i ds heq
    dsimp only at h
    split at h
    · rename_i hall
      simp only [Option.some.injEq] at h
      obtain ⟨hlen, hmem⟩ := re_ipv4_first_spec line.data ds heq
      have hnd : ∀ d ∈ ds, '.' ∉ d :=
        fun d hd => all_digits_no_dot d (hmem d hd).2.2
      have hsplit : splitDotsGo (joinDots ds) [] = ds :=
        splitDots_joinDots ds
          (by intro hnil; rw [hnil] at hlen; simp at hlen) hnd
      have hip : ip.data = joinDots ds := by rw [← h]
      obtain ⟨o1, o2, o3, o4, rfl⟩ := length_four_shape ds hlen
      rw [hsplit] at hall
      simp only [List.all_cons, List.all_nil, Bool.and_true,
        Bool.and_eq_true] at hall
      obtain ⟨h1, h2, h3, h4⟩ := hall
      unfold validIPv4
      rw [hip, hsplit]
      simp [h1, h2, h3, h4]
    · exact absurd h (by simp)

theorem collectGo_facts :
    ∀ (l : List (Nat × String)) (seen : List String) (cand : Candidate),
      cand ∈ collectGo l seen →
      primary_tag_of_line cand.line = some cand.tag
      ∧ extract_ipv4 cand.line = some cand.ip := by
  intro l
  induction l with
  | nil => intro seen cand hc; simp [collectGo] at hc
  | cons hd rest ih =>
    intro seen cand hc
    obtain ⟨idx, raw⟩ := hd
    simp only [collectGo] at hc
    split at hc
    · exact ih _ _ hc
    · split at hc
      · exact ih _ _ hc
      · split at hc
        · exact ih _ _ hc
        · split at hc
          · exact ih _ _ hc
          · rename_i tag htag
            split at hc
            · exact ih _ _ hc
            · rename_i ip hip
              rcases List.mem_cons.mp hc with h | h
              · subst h
                exact ⟨htag, hip⟩
              · exact ih _ _ h

/-- C8: every collected candidate has a recognised country tag (one of the
five) and an extracted address that splits into exactly four dot-separated
octets, each a digit run with value in [0, 255]; a line for which tag
attribution or address extraction or octet validation fails contributes no
candidate, since every candidate records a successful attribution and
extraction on its own line. -/
theorem invalid_lines_skipped (text : String) (cand : Candidate)
    (h : cand ∈ collect_candidates text) :
    cand.tag ∈ COUNTRIES
    ∧ primary_tag_of_line cand.line = some cand.tag
    ∧ extract_ipv4 cand.line = some cand.ip
    ∧ validIPv4 cand.ip = true := by
  have hf := collectGo_facts _ _ _ h
  refine ⟨?_, hf.1, hf.2, extract_ipv4_valid _ _ hf.2⟩
  have hfind : COUNTRIES.find?
      (fun c => strContainsL (pyLower cand.line).data ('#' :: c.data))
      = some cand.tag := hf.1
  exact List.mem_of_find?_eq_some hfind

/-- Witness for C8 on the line `1.2.3.4 #sg`. -/
theorem invalid_lines_skipped_witness :
    ("sg" : String) ∈ COUNTRIES
    ∧ primary_tag_of_line "1.2.3.4 #sg" = some "sg"
    ∧ extract_ipv4 "1.2.3.4 #sg" = some "1.2.3.4"
    ∧ validIPv4 "1.2.3.4" = true :=
  invalid_lines_skipped "1.2.3.4 #sg" ⟨0, "1.2.3.4 #sg", "sg", "1.2.3.4"⟩
    (by decide)

/-! ### Tag attribution and regex carving -/

/-- C4 (counterexample to the claim as stated): in `1.2.3.4 #sgx #hk` the
tag `sg` does not occur as a distinct token (the `x` continues the word)
while `hk` does, so token-based priority attribution would pick `hk`; yet
the collected candidate is attributed to `sg`, because
`primary_tag_of_line` tests plain substring containment. -/
theorem tag_attribution_counterexample :
    collect_candidates "1.2.3.4 #sgx #hk"
      = [⟨0, "1.2.3.4 #sgx #hk", "sg", "1.2.3.4"⟩]
    ∧ tokenPresent "sg" "1.2.3.4 #sgx #hk".data = false
    ∧ tokenPresent "hk" "1.2.3.4 #sgx #hk".data = true
    ∧ spec_primary_tag "1.2.3.4 #sgx #hk" = some "hk"
    ∧ primary_tag_of_line "1.2.3.4 #sgx #hk" = some "sg" :=
  ⟨rfl, rfl, rfl, rfl, rfl⟩

/-- C4 (amended): the attributed tag is the first country in the fixed
priority order sg, hk, jp, tw, kr whose `#tag` occurs as a case-insensitive
substring of the line (not necessarily as a distinct token); a line
carrying several tag substrings is attributed to exactly one country, the
highest-priority one. -/
theorem tag_attribution_by_sub :
    (∀ line : String,
      primary_tag_of_line line =
        (if strContainsL (pyLower line).data ('#' :: "sg".data) then some "sg"
         else if strContainsL (pyLower line).data ('#' :: "hk".data) then some "hk"
         else if strContainsL (pyLower line).data ('#' :: "jp".data) then some "jp"
         else if strContainsL (pyLower line).data ('#' :: "tw".data) then some "tw"
         else if strContainsL (pyLower line).data ('#' :: "kr".data) then some "kr"
         else none))
    ∧ primary_tag_of_line "1.2.3.4 #sg #hk" = some "sg" := by
  constructor
  · intro line
    show COUNTRIES.find? (fun c => strContainsL (pyLower line).data ('#' :: c.data)) = _
    simp only [COUNTRIES, List.find?_cons, List.find?_nil]
    by_cases h1 : strContainsL (pyLower line).data ('#' :: "sg".data) = true
    · simp [h1]
    · rw [Bool.not_eq_true] at h1
      by_cases h2 : strContainsL (pyLower line).data ('#' :: "hk".data) = true
      · simp [h1, h2]
      · rw [Bool.not_eq_true] at h2
        by_cases h3 : strContainsL (pyLower line).data ('#' :: "jp".data) = true
        · simp [h1, h2, h3]
        · rw [Bool.not_eq_true] at h3
          by_cases h4 : strContainsL (pyLower line).data ('#' :: "tw".data) = true
          · simp [h1, h2, h3, h4]
          · rw [Bool.not_eq_true] at h4
            by_cases h5 : strContainsL (pyLower line).data ('#' :: "kr".data) = true
            · simp [h1, h2, h3, h4, h5]
            · rw [Bool.not_eq_true] at h5
              simp [h1, h2, h3, h4, h5]
  · rfl

/-- C10: the unanchored `RE_IPV4` can match inside a longer digit run — the
line `1234.5.6.7 #sg` contains no whole-token IPv4, yet a candidate is
collected whose address `234.5.6.7` is carved out of the interior of
`1234.5.6.7` and is not a whitespace token of the line. -/
theorem ip_carved_from_digit_run :
    collect_candidates "1234.5.6.7 #sg"
      = [⟨0, "1234.5.6.7 #sg", "sg", "234.5.6.7"⟩]
    ∧ extract_ipv4 "1234.5.6.7 #sg" = some "234.5.6.7"
    ∧ tokensOf "1234.5.6.7 #sg" = ["1234.5.6.7", "#sg"]
    ∧ "234.5.6.7" ∉ tokensOf "1234.5.6.7 #sg" := by
  refine ⟨rfl, rfl, rfl, ?_⟩
  decide
